import Mathlib

/-!
Verification of the `rust-tools` repository: a shallow embedding of its
UTF-8 decoding iterator (`src/iter.rs`), streaming iterators (group-by,
swap-based remove iterator, dedup) and in-place slice/string primitives
(`src/slice.rs`, `src/str.rs`), together with proofs of the specified
properties.

Machine bytes are modelled as `Nat` values below 256; `u8`/`u32` bit
operations are modelled by the equivalent arithmetic on `Nat`
(`x & 0x3F = x % 64`, `x << 6 = x * 64`, and for values whose low bits
are zero, `|` is `+`). Slices and vectors are modelled as `List`s;
panics and assertion failures are modelled by `Option.none`.
-/

namespace RustTools

/-- Model of `<[T]>::swap i j`: exchanges the elements at positions `i`
and `j`. All uses in the source are with in-bounds indices; out-of-bounds
indices (which would panic in Rust) leave the list unchanged here. -/
def swapL {α : Type} (l : List α) (i j : Nat) : List α :=
  if h : i < l.length ∧ j < l.length then
    (l.set i (l.get ⟨j, h.2⟩)).set j (l.get ⟨i, h.1⟩)
  else l

theorem length_swapL {α : Type} (l : List α) (i j : Nat) :
    (swapL l i j).length = l.length := by
  unfold swapL
  split <;> simp

theorem getElem?_swapL {α : Type} (l : List α) (i j p : Nat)
    (hi : i < l.length) (hj : j < l.length) :
    (swapL l i j)[p]? = if p = j then l[i]? else if p = i then l[j]? else l[p]? := by
  unfold swapL
  rw [dif_pos ⟨hi, hj⟩]
  by_cases hpj : p = j
  · subst hpj
    rw [if_pos rfl, List.getElem?_set_self (by simpa using hj)]
    simp [hi]
  · rw [if_neg hpj, List.getElem?_set_ne (fun h => hpj h.symm)]
    by_cases hpi : p = i
    · subst hpi
      rw [if_pos rfl, List.getElem?_set_self (by simpa using hi)]
      simp [hj]
    · rw [if_neg hpi, List.getElem?_set_ne (fun h => hpi h.symm)]

theorem swapL_self {α : Type} (l : List α) (i : Nat) : swapL l i i = l := by
  by_cases h : i < l.length
  · apply List.ext_getElem?
    intro p
    rw [getElem?_swapL l i i p h h]
    by_cases hpi : p = i <;> simp [hpi]
  · unfold swapL
    rw [dif_neg (by intro hc; exact h hc.1)]

theorem swapL_swapL {α : Type} (l : List α) (i j : Nat)
    (hi : i < l.length) (hj : j < l.length) :
    swapL (swapL l i j) i j = l := by
  have hlen := length_swapL l i j
  apply List.ext_getElem?
  intro p
  rw [getElem?_swapL _ i j p (hlen ▸ hi) (hlen ▸ hj),
      getElem?_swapL l i j i hi hj, getElem?_swapL l i j j hi hj,
      getElem?_swapL l i j p hi hj]
  by_cases hpj : p = j <;> by_cases hpi : p = i <;> by_cases hij : i = j <;>
    simp_all

theorem cons_set_perm {α : Type} :
    ∀ (t : List α) (k : Nat) (hk : k < t.length) (x : α),
      ((t.get ⟨k, hk⟩) :: t.set k x).Perm (x :: t)
  | y :: s, 0, _, x => by
      simpa using List.Perm.swap x y s
  | y :: s, k + 1, hk, x => by
      have hks : k < s.length := by simpa using hk
      have step := cons_set_perm s k hks x
      have chain := (List.Perm.swap y (s.get ⟨k, hks⟩) (s.set k x)).trans
        ((List.Perm.cons y step).trans (List.Perm.swap x y s))
      simpa using chain

theorem set_set_perm {α : Type} :
    ∀ (l : List α) (i j : Nat) (hi : i < l.length) (hj : j < l.length),
      ((l.set i (l.get ⟨j, hj⟩)).set j (l.get ⟨i, hi⟩)).Perm l
  | hd :: tl, 0, 0, _, _ => by
      exact List.Perm.refl _
  | hd :: tl, 0, j + 1, hi, hj => by
      have hjs : j < tl.length := by simpa using hj
      simpa using cons_set_perm tl j hjs hd
  | hd :: tl, i + 1, 0, hi, hj => by
      have his : i < tl.length := by simpa using hi
      simpa using cons_set_perm tl i his hd
  | hd :: tl, i + 1, j + 1, hi, hj => by
      have his : i < tl.length := by simpa using hi
      have hjs : j < tl.length := by simpa using hj
      simpa using List.Perm.cons hd (set_set_perm tl i j his hjs)

theorem swapL_perm {α : Type} (l : List α) (i j : Nat) : (swapL l i j).Perm l := by
  unfold swapL
  split
  · next h => exact set_set_perm l i j h.1 h.2
  · exact List.Perm.refl l

/-!
UTF-8 decoding iterator (`Utf8Iter::next` in `src/iter.rs`).

Bytes are `Nat` values; theorems assume they are below 256. The `u8`
bit operations of the source are modelled arithmetically:
`first & (1 << 7) == 0` is `first < 0x80`, `x & 0xC0 == 0x80` is
`0x80 ≤ x ∧ x ≤ 0xBF`, `x & CONT_MASK` (`CONT_MASK = 0x3F`) is
`x % 64`, `first & ((1 << (7-l)) - 1)` is `first % 2 ^ (7 - l)`, and
`r << 6 | bits` is `r * 64 + bits` (the low six bits of `r << 6` are
zero). A yielded `Some(char)` is `some n` with `n` the scalar value;
the malformed marker `None` is `none`.
-/

/-- Model of `(!first).leading_zeros()` for a `u8`: the number of
leading one bits of the byte `first`. -/
def leadingOnes (first : Nat) : Nat :=
  if first < 0x80 then 0
  else if first < 0xC0 then 1
  else if first < 0xE0 then 2
  else if first < 0xF0 then 3
  else if first < 0xF8 then 4
  else if first < 0xFC then 5
  else if first < 0xFE then 6
  else if first < 0xFF then 7
  else 8

/-- The `match (l, first, second)` validation table of `Utf8Iter::next`:
`(2, _, _)` requires a continuation second byte; the three- and
four-byte rows reproduce the overlong/surrogate exclusion table. -/
def secondOk (l first second : Nat) : Prop :=
  (l = 2 ∧ 0x80 ≤ second ∧ second ≤ 0xBF) ∨
  (l = 3 ∧ ((first = 0xE0 ∧ 0xA0 ≤ second ∧ second ≤ 0xBF) ∨
            (0xE1 ≤ first ∧ first ≤ 0xEC ∧ 0x80 ≤ second ∧ second ≤ 0xBF) ∨
            (first = 0xED ∧ 0x80 ≤ second ∧ second ≤ 0x9F) ∨
            (0xEE ≤ first ∧ first ≤ 0xEF ∧ 0x80 ≤ second ∧ second ≤ 0xBF))) ∨
  (l = 4 ∧ ((first = 0xF0 ∧ 0x90 ≤ second ∧ second ≤ 0xBF) ∨
            (0xF1 ≤ first ∧ first ≤ 0xF3 ∧ 0x80 ≤ second ∧ second ≤ 0xBF) ∨
            (first = 0xF4 ∧ 0x80 ≤ second ∧ second ≤ 0x8F)))

instance (l first second : Nat) : Decidable (secondOk l first second) := by
  unfold secondOk
  infer_instance

/-- The `for _ in 0 .. l-2` continuation loop of `Utf8Iter::next`: each
further byte must be a continuation byte (peeked first; on failure or
source exhaustion the unit is malformed, and a failing byte stays
unconsumed), and contributes its low six bits to the value. -/
def contLoop : Nat → Nat → List Nat → Option (Option Nat × List Nat)
  | 0, result, buf => some (some result, buf)
  | k + 1, result, buf =>
    match buf with
    | [] => some (none, [])
    | next :: rest =>
      if 0x80 ≤ next ∧ next ≤ 0xBF then
        contLoop k (result * 64 + next % 64) rest
      else some (none, next :: rest)

/-- Model of one pull of `Utf8Iter::next`: `none` when the source is
exhausted, otherwise `some (unit, remaining bytes)` where `unit` is the
decoded scalar or `none` for a malformed unit. On the
`(l, first, second)` rejection path the peeked second byte is returned
unconsumed, exactly as in the source. -/
def utf8Next : List Nat → Option (Option Nat × List Nat)
  | [] => none
  | first :: buf =>
    if first < 0x80 then some (some first, buf)
    else
      let l := leadingOnes first
      match buf with
      | [] => some (none, [])
      | second :: buf2 =>
        if secondOk l first second then
          contLoop (l - 2) ((first % 2 ^ (7 - l)) * 64 + second % 64) buf2
        else some (none, second :: buf2)

/-- Pulling the iterator repeatedly (fuel-bounded driver); each pull
consumes at least one byte, so fuel `≥` the input length exhausts it. -/
def decodeRun : Nat → List Nat → List (Option Nat)
  | 0, _ => []
  | fuel + 1, l =>
    match utf8Next l with
    | none => []
    | some (o, rest) => o :: decodeRun fuel rest

/-- Modelled from the spec: the standard UTF-8 encoding of a scalar
value, used for the round-trip property of §8 (re-encoding is not part
of the repository's code). -/
def utf8Encode (c : Nat) : List Nat :=
  if c < 0x80 then [c]
  else if c < 0x800 then [0xC0 + c / 64, 0x80 + c % 64]
  else if c < 0x10000 then [0xE0 + c / 4096, 0x80 + c / 64 % 64, 0x80 + c % 64]
  else [0xF0 + c / 262144, 0x80 + c / 4096 % 64, 0x80 + c / 64 % 64, 0x80 + c % 64]

/-- Scalar values legal for a `char`: U+0000–U+D7FF or U+E000–U+10FFFF. -/
def validScalar (c : Nat) : Prop :=
  c < 0xD800 ∨ (0xE000 ≤ c ∧ c ≤ 0x10FFFF)

theorem contLoop_bounds :
    ∀ (k result : Nat) (buf : List Nat) (c : Nat) (rest : List Nat),
      contLoop k result buf = some (some c, rest) →
      result * 64 ^ k ≤ c ∧ c < (result + 1) * 64 ^ k
  | 0, result, buf, c, rest, h => by
      simp only [contLoop, Option.some.injEq, Prod.mk.injEq] at h
      obtain ⟨h1, _⟩ := h
      subst h1
      simp
  | k + 1, result, buf, c, rest, h => by
      match buf with
      | [] => simp [contLoop] at h
      | next :: buf2 =>
        simp only [contLoop] at h
        split at h
        · next hcont =>
          have ih := contLoop_bounds k (result * 64 + next % 64) buf2 c rest h
          have hm : next % 64 < 64 := Nat.mod_lt _ (by omega)
          have hp : (64 : Nat) ^ (k + 1) = 64 ^ k * 64 := by ring
          constructor
          · calc result * 64 ^ (k + 1) = result * 64 * 64 ^ k := by ring
              _ ≤ (result * 64 + next % 64) * 64 ^ k :=
                Nat.mul_le_mul_right _ (by omega)
              _ ≤ c := ih.1
          · calc c < (result * 64 + next % 64 + 1) * 64 ^ k := ih.2
              _ ≤ (result * 64 + 64) * 64 ^ k := Nat.mul_le_mul_right _ (by omega)
              _ = (result + 1) * 64 ^ (k + 1) := by ring
        · simp at h

theorem utf8Next_valid (l : List Nat) (c : Nat) (rest : List Nat)
    (h : utf8Next l = some (some c, rest)) : validScalar c := by
  match l with
  | [] => simp [utf8Next] at h
  | first :: buf =>
    simp only [utf8Next] at h
    split at h
    · next hascii =>
      simp only [Option.some.injEq, Prod.mk.injEq] at h
      obtain ⟨h1, _⟩ := h
      subst h1
      exact Or.inl (by omega)
    · next hascii =>
      match buf with
      | [] => simp at h
      | second :: buf2 =>
        simp only at h
        split at h
        · next hok =>
          rcases hok with ⟨hl, hs⟩ | ⟨hl, hcase⟩ | ⟨hl, hcase⟩
          · rw [hl] at h
            have hb := contLoop_bounds 0 _ _ _ _ h
            have : first % 2 ^ (7 - 2) < 32 := Nat.mod_lt _ (by omega)
            have : second % 64 < 64 := Nat.mod_lt _ (by omega)
            simp only [pow_zero, Nat.mul_one] at hb
            exact Or.inl (by omega)
          · rw [hl] at h
            have hb := contLoop_bounds 1 _ _ _ _ h
            have hsm : second % 64 < 64 := Nat.mod_lt _ (by omega)
            simp only [pow_one] at hb
            rcases hcase with ⟨hf, hs⟩ | ⟨hf1, hf2, hs⟩ | ⟨hf, hs⟩ | ⟨hf1, hf2, hs⟩
            · have : first % 2 ^ (7 - 3) = 0 := by rw [hf]; decide
              exact Or.inl (by omega)
            · have : first % 2 ^ (7 - 3) ≤ 12 := by
                interval_cases first <;> simp
              exact Or.inl (by omega)
            · have h16 : first % 2 ^ (7 - 3) = 13 := by rw [hf]; decide
              have : second % 64 ≤ 31 := by omega
              exact Or.inl (by omega)
            · have : 14 ≤ first % 2 ^ (7 - 3) ∧ first % 2 ^ (7 - 3) ≤ 15 := by
                interval_cases first <;> simp
              exact Or.inr (by omega)
          · rw [hl] at h
            have hb := contLoop_bounds 2 _ _ _ _ h
            have hsm : second % 64 < 64 := Nat.mod_lt _ (by omega)
            have hp : (64 : Nat) ^ 2 = 4096 := by norm_num
            rw [hp] at hb
            rcases hcase with ⟨hf, hs⟩ | ⟨hf1, hf2, hs⟩ | ⟨hf, hs⟩
            · have h8 : first % 2 ^ (7 - 4) = 0 := by rw [hf]; decide
              have : 16 ≤ second % 64 := by omega
              exact Or.inr (by omega)
            · have : 1 ≤ first % 2 ^ (7 - 4) ∧ first % 2 ^ (7 - 4) ≤ 3 := by
                interval_cases first <;> simp
              exact Or.inr (by omega)
            · have h8 : first % 2 ^ (7 - 4) = 4 := by rw [hf]; decide
              have : second % 64 ≤ 15 := by omega
              exact Or.inr (by omega)
        · simp at h

example : decodeRun 1 [0x42] = [some 0x42] := by decide
example : decodeRun 2 [0xC9, 0xA3] = [some 0x263] := by decide
example : decodeRun 3 [0xE2, 0x98, 0x83] = [some 0x2603] := by decide
example : decodeRun 4 [0xF0, 0xA0, 0x9C, 0xB1] = [some 0x20731] := by decide
example : decodeRun 12 [0x42, 0xC9, 0xA3, 0xE2, 0x98, 0x83,
    0xF0, 0xA0, 0x9C, 0xB1, 0xFF, 0x41] =
    [some 0x42, some 0x263, some 0x2603, some 0x20731, none, some 0x41] := by
  decide
example : decodeRun 2 [0xC0, 0x80] = [some 0] := by decide
example : decodeRun 2 [0xC2, 0x41] = [none, some 0x41] := by decide

/-- C3: every successfully decoded unit the iterator yields is a valid
scalar value, an integer in U+0000–U+D7FF or U+E000–U+10FFFF, so the
unchecked `mem::transmute` of the assembled 32-bit value to `char`
never produces an out-of-range value. (Proved for every input sequence
of naturals, in particular for every byte sequence.) -/
theorem decoded_units_are_valid_scalars :
    ∀ (fuel : Nat) (l : List Nat) (c : Nat),
      some c ∈ decodeRun fuel l → validScalar c
  | 0, l, c, h => by simp [decodeRun] at h
  | fuel + 1, l, c, h => by
      simp only [decodeRun] at h
      match hn : utf8Next l with
      | none => rw [hn] at h; simp at h
      | some (o, rest) =>
        rw [hn] at h
        rcases List.mem_cons.mp h with heq | hmem
        · subst heq
          exact utf8Next_valid l c rest hn
        · exact decoded_units_are_valid_scalars fuel rest c hmem

/-- Witness for `decoded_units_are_valid_scalars` at the concrete
decode of the snowman `[0xE2, 0x98, 0x83]`. -/
theorem decoded_units_are_valid_scalars_witness :
    some 0x2603 ∈ decodeRun 3 [0xE2, 0x98, 0x83] ∧ validScalar 0x2603 :=
  ⟨by decide, decoded_units_are_valid_scalars 3 [0xE2, 0x98, 0x83] 0x2603
    (by decide)⟩

/-- C9: concrete decodes — `[0x42]` yields `'B'` (U+0042),
`[0xC9, 0xA3]` yields U+0263, `[0xE2, 0x98, 0x83]` yields U+2603,
`[0xF0, 0xA0, 0x9C, 0xB1]` yields U+20731, and in the source's own test
vector a lone `0xFF` yields exactly one malformed marker after which
decoding resumes at the next valid byte (`0x41`, decoded as U+0041). -/
theorem utf8_concrete_decodes :
    decodeRun 1 [0x42] = [some 0x42] ∧
    decodeRun 2 [0xC9, 0xA3] = [some 0x263] ∧
    decodeRun 3 [0xE2, 0x98, 0x83] = [some 0x2603] ∧
    decodeRun 4 [0xF0, 0xA0, 0x9C, 0xB1] = [some 0x20731] ∧
    decodeRun 12 [0x42, 0xC9, 0xA3, 0xE2, 0x98, 0x83,
      0xF0, 0xA0, 0x9C, 0xB1, 0xFF, 0x41] =
      [some 0x42, some 0x263, some 0x2603, some 0x20731, none, some 0x41] := by
  refine ⟨by decide, by decide, by decide, by decide, by decide⟩

/-- C1 (code bug): the round-trip property fails on the code. The
decoder accepts the overlong two-byte unit `[0xC0, 0x80]` — the
`(2, _, _)` match arm admits the leaders `0xC0`/`0xC1`, which
well-formed UTF-8 excludes, although the three- and four-byte arms do
exclude overlong forms — consuming both bytes as one valid unit that
decodes to U+0000, whose re-encoding is `[0x00]`, not `[0xC0, 0x80]`. -/
theorem roundtrip_fails_on_overlong :
    utf8Next [0xC0, 0x80] = some (some 0, []) ∧
    decodeRun 2 [0xC0, 0x80] = [some 0] ∧
    utf8Encode 0 = [0x00] ∧ utf8Encode 0 ≠ [0xC0, 0x80] := by
  refine ⟨by decide, by decide, by decide, by decide⟩

/-- C2 (counterexample): on input `[0xC2, 0x41]` the
`(first, second)` validation fails, and the malformed unit does NOT
consume the peeked second byte: `0x41` stays in the stream and the next
pull decodes it as a fresh (valid) unit, so the run yields
`[malformed, U+0041]` — refuting the claim that the malformed unit
consumes every peeked byte and that the second byte is never
re-scanned. -/
theorem malformed_rescans_peeked_byte :
    utf8Next [0xC2, 0x41] = some (none, [0x41]) ∧
    decodeRun 2 [0xC2, 0x41] = [none, some 0x41] ∧
    decodeRun 2 [0xC2, 0x41] ≠ [none] := by
  refine ⟨by decide, by decide, by decide⟩

/-- C2 (amended): when the `(first, second)` combination fails width or
second-byte validation, the malformed unit consumes only the first
byte; the peeked second byte is left in the stream and is re-scanned as
the first byte of a fresh unit on the next pull. -/
theorem malformed_consumes_only_first_byte (first second : Nat)
    (rest : List Nat) (fuel : Nat) (h1 : 0x80 ≤ first)
    (h2 : ¬ secondOk (leadingOnes first) first second) :
    utf8Next (first :: second :: rest) = some (none, second :: rest) ∧
    decodeRun (fuel + 1) (first :: second :: rest) =
      none :: decodeRun fuel (second :: rest) := by
  have hstep : utf8Next (first :: second :: rest) = some (none, second :: rest) := by
    simp only [utf8Next, if_neg (by omega : ¬ first < 0x80)]
    rw [if_neg h2]
  exact ⟨hstep, by simp only [decodeRun, hstep]⟩

/-- Witness for `malformed_consumes_only_first_byte` at the concrete
input `[0xC2, 0x41]`. -/
theorem malformed_consumes_only_first_byte_witness :
    utf8Next [0xC2, 0x41] = some (none, [0x41]) ∧
    decodeRun 1 [0xC2, 0x41] = none :: decodeRun 0 [0x41] :=
  malformed_consumes_only_first_byte 0xC2 0x41 [] 0 (by decide) (by decide)

/-!
In-place truncation (`VecTools::in_place` in `src/slice.rs` and
`StringTools::in_place` in `src/str.rs`).

A `Vec<T>` / `String` is a list of elements plus a capacity. The
caller's closure returns a sub-view of the current contents; the
`subslice_offset` address validation yields its offset and length and
asserts containment (`offset + len2 ≤ length`), so the sub-view is
modelled by the pair `(off, len2)` and a failed assertion by `none`.
-/

structure RVec (α : Type) where
  data : List α
  cap : Nat

/-- The `for i in (0..len2) self.swap(i, i + offset)` loop of
`VecTools::in_place`: `swapLoop off i k l` performs the swaps for the
`k` indices `i, i+1, …, i+k-1` in ascending order. -/
def swapLoop {α : Type} (off : Nat) : Nat → Nat → List α → List α
  | _, 0, l => l
  | i, k + 1, l => swapLoop off (i + 1) k (swapL l i (i + off))

/-- Model of `VecTools::in_place` applied to a selector returning the
sub-view at `(off, len2)`: validate containment (`subslice_offset`,
`none` = assertion failure), shift the sub-view to the front by
pairwise swaps, then `truncate(len2)`. Capacity is untouched. -/
def in_place {α : Type} (v : RVec α) (off len2 : Nat) : Option (RVec α) :=
  if off + len2 ≤ v.data.length then
    some ⟨(swapLoop off 0 len2 v.data).take len2, v.cap⟩
  else none

structure RStr where
  data : List Nat
  cap : Nat

/-- Model of `StringTools::in_place` applied to a selector returning
the sub-view at `(off, len2)`: validate containment
(`subslice_offset`), then `copy_memory` the `len2` bytes at `off` to
the front (positions past `len2` keep their old bytes) and
`set_len(len2)`. Capacity is untouched. -/
def str_in_place (s : RStr) (off len2 : Nat) : Option RStr :=
  if off + len2 ≤ s.data.length then
    some ⟨((s.data.drop off).take len2 ++ s.data.drop len2).take len2, s.cap⟩
  else none

theorem swapLoop_invariant {α : Type} (off : Nat) :
    ∀ (k i : Nat) (l o : List α),
      l.length = o.length →
      (∀ p, p < i → l[p]? = o[p + off]?) →
      (∀ p, i + off ≤ p → l[p]? = o[p]?) →
      i + k + off ≤ o.length →
      (swapLoop off i k l).length = o.length ∧
      (∀ p, p < i + k → (swapLoop off i k l)[p]? = o[p + off]?) ∧
      (∀ p, i + k + off ≤ p → (swapLoop off i k l)[p]? = o[p]?)
  | 0, i, l, o, hlen, h1, h2, _ => by
      refine ⟨hlen, ?_, ?_⟩
      · simpa using h1
      · simpa using h2
  | k + 1, i, l, o, hlen, h1, h2, hb => by
      have hi : i < l.length := by omega
      have hio : i + off < l.length := by omega
      have hget := fun p => getElem?_swapL l i (i + off) p hi hio
      have hlen2 : (swapL l i (i + off)).length = o.length := by
        rw [length_swapL]; exact hlen
      have h1n : ∀ p, p < i + 1 → (swapL l i (i + off))[p]? = o[p + off]? := by
        intro p hp
        rw [hget p]
        by_cases hpi : p = i
        · subst hpi
          by_cases hoff : p = p + off
          · have hoff0 : off = 0 := by omega
            rw [if_pos hoff]
            simpa [hoff0] using h2 p (by omega)
          · rw [if_neg hoff, if_pos rfl, h2 (p + off) (by omega)]
        · have hne1 : p ≠ i + off := by omega
          rw [if_neg hne1, if_neg hpi]
          exact h1 p (by omega)
      have h2n : ∀ p, i + 1 + off ≤ p → (swapL l i (i + off))[p]? = o[p]? := by
        intro p hp
        rw [hget p, if_neg (by omega), if_neg (by omega)]
        exact h2 p (by omega)
      have ih := swapLoop_invariant off k (i + 1) (swapL l i (i + off)) o
        hlen2 h1n h2n (by omega)
      refine ⟨ih.1, ?_, ?_⟩
      · intro p hp
        exact ih.2.1 p (by omega)
      · intro p hp
        exact ih.2.2 p (by omega)

/-- C4: for every buffer and every in-bounds sub-view `(off, len2)` of
its contents, `in_place` (and `str_in_place`) succeeds, preserves the
capacity (no reallocation occurs: only element swaps or an
overlapping-safe forward copy plus a length truncation), and leaves
exactly the selected sub-view's contents, of the sub-view's length, at
the front — the ascending pairwise-swap shift is correct even when the
source and destination ranges overlap. -/
theorem in_place_spec {α : Type} (v : RVec α) (s : RStr) (off len2 : Nat)
    (hv : off + len2 ≤ v.data.length) (hs : off + len2 ≤ s.data.length) :
    (∃ w, in_place v off len2 = some w ∧ w.cap = v.cap ∧
      w.data.length = len2 ∧ w.data = (v.data.drop off).take len2) ∧
    (∃ t, str_in_place s off len2 = some t ∧ t.cap = s.cap ∧
      t.data.length = len2 ∧ t.data = (s.data.drop off).take len2) := by
  constructor
  · have inv := swapLoop_invariant off len2 0 v.data v.data rfl
      (by intro p hp; omega) (fun p _ => rfl) (by omega)
    have hres : (swapLoop off 0 len2 v.data).take len2 =
        (v.data.drop off).take len2 := by
      apply List.ext_getElem?
      intro p
      by_cases hp : p < len2
      · rw [List.getElem?_take_of_lt hp, List.getElem?_take_of_lt hp,
          inv.2.1 p (by omega), List.getElem?_drop]
        congr 1
        omega
      · rw [List.getElem?_eq_none, List.getElem?_eq_none]
        · simp only [List.length_take, List.length_drop]
          omega
        · simp only [List.length_take, inv.1]
          omega
    refine ⟨⟨(swapLoop off 0 len2 v.data).take len2, v.cap⟩, ?_, rfl, ?_, hres⟩
    · unfold in_place
      rw [if_pos hv]
    · rw [hres]
      simp only [List.length_take, List.length_drop]
      omega
  · have hfront : ((s.data.drop off).take len2 ++ s.data.drop len2).take len2 =
        (s.data.drop off).take len2 := by
      have hl : ((s.data.drop off).take len2).length = len2 := by
        simp only [List.length_take, List.length_drop]
        omega
      rw [List.take_left' hl]
    refine ⟨⟨((s.data.drop off).take len2 ++ s.data.drop len2).take len2, s.cap⟩,
      ?_, rfl, ?_, hfront⟩
    · unfold str_in_place
      rw [if_pos hs]
    · rw [hfront]
      simp only [List.length_take, List.length_drop]
      omega

/-- Witness for `in_place_spec`, mirroring the repository's own tests:
`vec![0,1,2,3,4,5,6,7].in_place(|x| &x[3..])` and the string test's
shape. -/
theorem in_place_spec_witness :
    (3 + 5 ≤ ([0, 1, 2, 3, 4, 5, 6, 7] : List Nat).length) ∧
    (∃ w, in_place ⟨[0, 1, 2, 3, 4, 5, 6, 7], 8⟩ 3 5 = some w ∧
      w.cap = 8 ∧ w.data.length = 5 ∧
      w.data = (([0, 1, 2, 3, 4, 5, 6, 7] : List Nat).drop 3).take 5) ∧
    (∃ t, str_in_place ⟨[0, 1, 2, 3, 4, 5, 6, 7], 8⟩ 3 5 = some t ∧
      t.cap = 8 ∧ t.data.length = 5 ∧
      t.data = (([0, 1, 2, 3, 4, 5, 6, 7] : List Nat).drop 3).take 5) := by
  have h := in_place_spec (α := Nat) ⟨[0, 1, 2, 3, 4, 5, 6, 7], 8⟩
    ⟨[0, 1, 2, 3, 4, 5, 6, 7], 8⟩ 3 5 (by decide) (by decide)
  exact ⟨by decide, h.1, h.2⟩

/-!
Swap-based remove iterator (`SliceTools::swap_remove` and
`RemoveIter::next_streaming` in `src/slice.rs`).
-/

/-- Model of `SliceTools::swap_remove`: swap the element at `idx` with
the last element, split off the last element, and return
`((removed, rest), mutated slice)`; the mutated slice is carried so the
iterator state can be threaded. `none` models the length-0 panic. -/
def swap_remove {α : Type} (l : List α) (idx : Nat) :
    Option ((α × List α) × List α) :=
  match (swapL l idx (l.length - 1))[l.length - 1]? with
  | some x => some ((x, (swapL l idx (l.length - 1)).take (l.length - 1)),
      swapL l idx (l.length - 1))
  | none => none

structure RIter (α : Type) where
  slice : List α
  idx : Nat

/-- The undo step of `RemoveIter::next_streaming`: when a previous pull
happened (`idx > 0`), swap positions `idx - 1` and `len - 1` back. -/
def removeUndo {α : Type} (st : RIter α) : List α :=
  if 0 < st.idx then swapL st.slice (st.idx - 1) (st.slice.length - 1)
  else st.slice

/-- Model of one pull of `RemoveIter::next_streaming`: undo the
previous `swap_remove`, advance the index, and either stop (`none`
once `idx` passes the length) or `swap_remove` the current element. -/
def removeNext {α : Type} (st : RIter α) : Option (α × List α) × RIter α :=
  if st.slice.length < st.idx + 1 then (none, ⟨removeUndo st, st.idx + 1⟩)
  else
    match swap_remove (removeUndo st) st.idx with
    | some (pair, l2) => (some pair, ⟨l2, st.idx + 1⟩)
    | none => (none, ⟨removeUndo st, st.idx + 1⟩)

/-- Pulling the remove iterator until it reports exhaustion
(fuel-bounded driver): returns the yielded `(removed, rest)` pairs and
the state after the exhausting pull. -/
def runRemove {α : Type} : Nat → RIter α → List (α × List α) × RIter α
  | 0, st => ([], st)
  | fuel + 1, st =>
    match removeNext st with
    | (none, st2) => ([], st2)
    | (some p, st2) => (p :: (runRemove fuel st2).1, (runRemove fuel st2).2)

/-- The iterator state after `i` completed pulls on an original slice
`l`: before the first pull the slice is untouched; afterwards it is `l`
with positions `i - 1` and `length - 1` exchanged. -/
def stateAt {α : Type} (l : List α) (i : Nat) : RIter α :=
  ⟨if i = 0 then l else swapL l (i - 1) (l.length - 1), i⟩

theorem removeNext_step {α : Type} (l : List α) (i : Nat)
    (hi : i < l.length) :
    removeNext (stateAt l i) =
      (some (l.get ⟨i, hi⟩, (swapL l i (l.length - 1)).take (l.length - 1)),
       stateAt l (i + 1)) := by
  have hN1 : l.length - 1 < l.length := by omega
  have hundo : removeUndo (stateAt l i) = l := by
    unfold removeUndo stateAt
    by_cases h0 : i = 0
    · simp [h0]
    · simp only [if_neg h0, if_pos (by omega : 0 < i), length_swapL]
      exact swapL_swapL l (i - 1) (l.length - 1) (by omega) hN1
  have hlenst : (stateAt l i).slice.length = l.length := by
    unfold stateAt
    by_cases h0 : i = 0 <;> simp [h0, length_swapL]
  have hsr : swap_remove l i = some ((l.get ⟨i, hi⟩,
      (swapL l i (l.length - 1)).take (l.length - 1)),
      swapL l i (l.length - 1)) := by
    unfold swap_remove
    have hget : (swapL l i (l.length - 1))[l.length - 1]? = some (l.get ⟨i, hi⟩) := by
      rw [getElem?_swapL l i (l.length - 1) (l.length - 1) hi hN1, if_pos rfl]
      simp [hi]
    split
    · next x hx =>
      rw [hget] at hx
      simp only [Option.some.injEq] at hx
      subst hx
      rfl
    · next hx =>
      rw [hget] at hx
      simp at hx
  have hidx : (stateAt l i).idx = i := rfl
  unfold removeNext
  rw [if_neg (by rw [hlenst, hidx]; omega), hundo, hidx, hsr]
  unfold stateAt
  simp only [if_neg (by omega : ¬ i + 1 = 0), Nat.add_sub_cancel]

theorem removeNext_exhaust {α : Type} (l : List α) :
    removeNext (stateAt l l.length) = (none, ⟨l, l.length + 1⟩) := by
  have hundo : removeUndo (stateAt l l.length) = l := by
    unfold removeUndo stateAt
    by_cases h0 : l.length = 0
    · simp [h0]
    · simp only [if_neg h0, if_pos (by omega : 0 < l.length)]
      simp only [length_swapL, swapL_self]
  have hlenst : (stateAt l l.length).slice.length = l.length := by
    unfold stateAt
    by_cases h0 : l.length = 0 <;> simp [h0, length_swapL]
  have hidx : (stateAt l l.length).idx = l.length := rfl
  unfold removeNext
  rw [if_pos (by rw [hlenst, hidx]; omega), hundo, hidx]

theorem runRemove_master {α : Type} (l : List α) :
    ∀ (k i fuel : Nat), i + k = l.length → l.length - i + 1 ≤ fuel →
      (runRemove fuel (stateAt l i)).2 = ⟨l, l.length + 1⟩ ∧
      (runRemove fuel (stateAt l i)).1.length = l.length - i ∧
      ∀ j, j < l.length - i →
        ((runRemove fuel (stateAt l i)).1[j]?).map Prod.fst = l[i + j]? ∧
        ((runRemove fuel (stateAt l i)).1[j]?).map Prod.snd =
          some ((swapL l (i + j) (l.length - 1)).take (l.length - 1))
  | 0, i, fuel, hik, hfuel => by
      have hi : i = l.length := by omega
      subst hi
      match fuel, hfuel with
      | f + 1, _ =>
        have hrun : runRemove (f + 1) (stateAt l l.length) =
            ([], ⟨l, l.length + 1⟩) := by
          simp only [runRemove, removeNext_exhaust l]
        rw [hrun]
        refine ⟨rfl, by simp, ?_⟩
        intro j hj
        exact absurd hj (by omega)
  | k + 1, i, fuel, hik, hfuel => by
      have hi : i < l.length := by omega
      match fuel, hfuel with
      | f + 1, hf =>
        have ih := runRemove_master l k (i + 1) f (by omega) (by omega)
        simp only [runRemove, removeNext_step l i hi]
        refine ⟨ih.1, ?_, ?_⟩
        · simp only [List.length_cons, ih.2.1]
          omega
        · intro j hj
          match j with
          | 0 =>
            constructor
            · simp [hi]
            · simp
          | j' + 1 =>
            have hj' : j' < l.length - (i + 1) := by omega
            have hidx2 : i + (j' + 1) = (i + 1) + j' := by omega
            constructor
            · rw [hidx2]
              simpa using (ih.2.2 j' hj').1
            · rw [hidx2]
              simpa using (ih.2.2 j' hj').2

/-- C5: after the remove iterator is pulled until it reports
exhaustion, the slice's element order equals the original order,
element for element (each pull's `swap_remove` was undone by the
following pull, and the final undo is the identity swap). -/
theorem remove_iter_restores_order {α : Type} (l : List α) (fuel : Nat)
    (hfuel : l.length + 1 ≤ fuel) :
    (runRemove fuel ⟨l, 0⟩).2.slice = l := by
  have h0 : stateAt l 0 = (⟨l, 0⟩ : RIter α) := rfl
  have h := (runRemove_master l l.length 0 fuel (by omega) (by omega)).1
  rw [← h0, h]

/-- Witness for `remove_iter_restores_order` on the source's own test
slice `[0, 1, 2, 3]`. -/
theorem remove_iter_restores_order_witness :
    ([0, 1, 2, 3] : List Nat).length + 1 ≤ 5 ∧
    (runRemove 5 (⟨[0, 1, 2, 3], 0⟩ : RIter Nat)).2.slice = [0, 1, 2, 3] :=
  ⟨by decide, remove_iter_restores_order [0, 1, 2, 3] 5 (by decide)⟩

/-- C8: on a non-empty slice of length `N` the remove iterator yields
exactly `N` pairs; the `j`-th yielded removed element is the `j`-th
element of the original slice, and the `j`-th yielded rest, with the
removed element appended, is a permutation of the original slice (the
rest is the original multiset minus the `j`-th original element). -/
theorem remove_iter_pulls {α : Type} (l : List α) (hne : l ≠ []) :
    (runRemove (l.length + 1) (⟨l, 0⟩ : RIter α)).1.length = l.length ∧
    ∀ j, j < l.length →
      ((runRemove (l.length + 1) (⟨l, 0⟩ : RIter α)).1[j]?).map Prod.fst = l[j]? ∧
      ∃ removed rest,
        (runRemove (l.length + 1) (⟨l, 0⟩ : RIter α)).1[j]? = some (removed, rest) ∧
        (rest ++ [removed]).Perm l := by
  have h0 : stateAt l 0 = (⟨l, 0⟩ : RIter α) := rfl
  have hm := runRemove_master l l.length 0 (l.length + 1) (by omega) (by omega)
  rw [h0] at hm
  have hNpos : 0 < l.length := List.length_pos.mpr hne
  refine ⟨by rw [hm.2.1]; omega, ?_⟩
  intro j hj
  have hjs := hm.2.2 j (by omega)
  have hfst : ((runRemove (l.length + 1) (⟨l, 0⟩ : RIter α)).1[j]?).map Prod.fst
      = l[j]? := by simpa using hjs.1
  refine ⟨hfst, ?_⟩
  match hout : (runRemove (l.length + 1) (⟨l, 0⟩ : RIter α)).1[j]? with
  | none =>
      rw [hout] at hfst
      rw [List.getElem?_eq_getElem hj] at hfst
      simp at hfst
  | some (removed, rest) =>
      refine ⟨removed, rest, rfl, ?_⟩
      have hsnd := hjs.2
      rw [hout] at hsnd hfst
      simp at hsnd hfst
      set s2 := swapL l j (l.length - 1) with hs2
      have hs2len : s2.length = l.length := length_swapL l j (l.length - 1)
      have hlast : s2[l.length - 1]? = l[j]? := by
        rw [hs2, getElem?_swapL l j (l.length - 1) (l.length - 1) (by omega)
          (by omega), if_pos rfl]
      have hlast2 : s2[l.length - 1]? = some removed := by
        rw [hlast, ← hfst]
      obtain ⟨hlt, heq⟩ := List.getElem?_eq_some_iff.mp hlast2
      have hconcat : rest ++ [removed] = s2 := by
        rw [hsnd, ← heq, List.take_concat_get' s2 (l.length - 1) hlt]
        have hN1 : l.length - 1 + 1 = l.length := by omega
        rw [hN1, ← hs2len, List.take_length]
      rw [hconcat]
      exact swapL_perm l j (l.length - 1)

/-- Witness for `remove_iter_pulls` on the source's own test slice
`[0, 1, 2, 3]`. -/
theorem remove_iter_pulls_witness :
    ([0, 1, 2, 3] : List Nat) ≠ [] ∧
    ((runRemove (([0, 1, 2, 3] : List Nat).length + 1)
        (⟨[0, 1, 2, 3], 0⟩ : RIter Nat)).1.length = ([0, 1, 2, 3] : List Nat).length ∧
      ∀ j, j < ([0, 1, 2, 3] : List Nat).length →
        ((runRemove (([0, 1, 2, 3] : List Nat).length + 1)
            (⟨[0, 1, 2, 3], 0⟩ : RIter Nat)).1[j]?).map Prod.fst =
          ([0, 1, 2, 3] : List Nat)[j]? ∧
        ∃ removed rest,
          (runRemove (([0, 1, 2, 3] : List Nat).length + 1)
              (⟨[0, 1, 2, 3], 0⟩ : RIter Nat)).1[j]? = some (removed, rest) ∧
          (rest ++ [removed]).Perm [0, 1, 2, 3]) :=
  ⟨by decide, remove_iter_pulls [0, 1, 2, 3] (by decide)⟩

/-!
Disjoint promotion (`SliceTools::promote` in `src/slice.rs`).

The closure's two returned sub-views of the parent slice `s` are
modelled by index ranges `(off, len)` into `s` (the source's
`a.as_ptr() >= self.as_ptr()` holds by construction in this model).
The source orders the two views by start address, then asserts the
first's end `≤` the second's start and the second's end `≤` the
parent's end; assertion failure (panic) is `none`.
-/

/-- The body of `promote` after the address ordering: the two
containment/disjointness assertions, then the reinterpretation of the
two read-only views as mutable views of the same ranges. -/
def promoteChecked {α : Type} (s : List α) (oa la ob lb : Nat) :
    Option (List α × List α) :=
  if oa + la ≤ ob ∧ ob + lb ≤ s.length then
    some ((s.drop oa).take la, (s.drop ob).take lb)
  else none

/-- Model of `SliceTools::promote`: order the two views by start
address (`if a.as_ptr() > b.as_ptr() { mem::swap(&mut a, &mut b) }`),
then check and split. -/
def promote {α : Type} (s : List α) (off1 len1 off2 len2 : Nat) :
    Option (List α × List α) :=
  if off2 < off1 then promoteChecked s off2 len2 off1 len1
  else promoteChecked s off1 len1 off2 len2

theorem extract_set_outside {α : Type} (s : List α) (q o len : Nat) (x : α)
    (hout : q < o ∨ o + len ≤ q) :
    ((s.set q x).drop o).take len = (s.drop o).take len := by
  apply List.ext_getElem?
  intro p
  by_cases hp : p < len
  · rw [List.getElem?_take_of_lt hp, List.getElem?_take_of_lt hp,
      List.getElem?_drop, List.getElem?_drop,
      List.getElem?_set_ne (by omega : q ≠ o + p)]
  · rw [List.getElem?_eq_none, List.getElem?_eq_none] <;>
      simp only [List.length_take, List.length_drop, List.length_set] <;>
      omega

theorem extract_set_inside {α : Type} (s : List α) (i o len : Nat) (x : α)
    (hi : i < len) (hcont : o + len ≤ s.length) :
    ((s.set (o + i) x).drop o).take len = ((s.drop o).take len).set i x := by
  apply List.ext_getElem?
  intro p
  by_cases hp : p < len
  · rw [List.getElem?_take_of_lt hp]
    by_cases hpi : p = i
    · subst hpi
      rw [List.getElem?_drop,
        List.getElem?_set_self (by simpa using (by omega : o + p < s.length)),
        List.getElem?_set_self]
      simp only [List.length_take, List.length_drop]
      omega
    · rw [List.getElem?_drop, List.getElem?_set_ne (by omega : o + i ≠ o + p),
        List.getElem?_set_ne (fun h => hpi h.symm), List.getElem?_take_of_lt hp,
        List.getElem?_drop]
  · rw [List.getElem?_eq_none, List.getElem?_eq_none] <;>
      simp only [List.length_take, List.length_drop, List.length_set] <;>
      omega

/-- C7: `promote`, with the two candidate views ordered by start
address (`o1 ≤ o2`), fails the assertions (panics) exactly when the
first view's end exceeds the second's start or the second view is not
contained in the parent; when the views are disjoint and contained it
returns the two views covering exactly the corresponding original
element ranges, and mutating an element through either view changes
exactly that element of that view's range and no element of the other
view's range. -/
theorem promote_spec {α : Type} (s : List α) (o1 l1 o2 l2 : Nat)
    (h : o1 ≤ o2) :
    (promote s o1 l1 o2 l2 = none ↔ ¬(o1 + l1 ≤ o2 ∧ o2 + l2 ≤ s.length)) ∧
    ((o1 + l1 ≤ o2 ∧ o2 + l2 ≤ s.length) →
      promote s o1 l1 o2 l2 = some ((s.drop o1).take l1, (s.drop o2).take l2) ∧
      (∀ i x, i < l1 →
        ((s.set (o1 + i) x).drop o2).take l2 = (s.drop o2).take l2 ∧
        ((s.set (o1 + i) x).drop o1).take l1 = ((s.drop o1).take l1).set i x) ∧
      (∀ i x, i < l2 →
        ((s.set (o2 + i) x).drop o1).take l1 = (s.drop o1).take l1 ∧
        ((s.set (o2 + i) x).drop o2).take l2 = ((s.drop o2).take l2).set i x)) := by
  have hdef : promote s o1 l1 o2 l2 = promoteChecked s o1 l1 o2 l2 := by
    unfold promote
    rw [if_neg (by omega : ¬ o2 < o1)]
  constructor
  · rw [hdef]
    unfold promoteChecked
    constructor
    · intro hnone hcond
      rw [if_pos hcond] at hnone
      exact Option.noConfusion hnone
    · intro hcond
      rw [if_neg hcond]
  · intro hcond
    refine ⟨by rw [hdef]; unfold promoteChecked; rw [if_pos hcond], ?_, ?_⟩
    · intro i x hi
      refine ⟨extract_set_outside s (o1 + i) o2 l2 x (by omega), ?_⟩
      exact extract_set_inside s i o1 l1 x hi (by omega)
    · intro i x hi
      refine ⟨extract_set_outside s (o2 + i) o1 l1 x (by omega), ?_⟩
      exact extract_set_inside s i o2 l2 x hi (by omega)

/-- Witness for `promote_spec` on the source's own test:
`vec![0,…,7].promote(|x| x.split_at(3))`. -/
theorem promote_spec_witness :
    (3 : Nat) ≤ 3 ∧
    (promote ([0, 1, 2, 3, 4, 5, 6, 7] : List Nat) 0 3 3 5 = none ↔
      ¬(0 + 3 ≤ 3 ∧ 3 + 5 ≤ ([0, 1, 2, 3, 4, 5, 6, 7] : List Nat).length)) ∧
    ((0 + 3 ≤ 3 ∧ 3 + 5 ≤ ([0, 1, 2, 3, 4, 5, 6, 7] : List Nat).length) →
      promote ([0, 1, 2, 3, 4, 5, 6, 7] : List Nat) 0 3 3 5 =
        some ((([0, 1, 2, 3, 4, 5, 6, 7] : List Nat).drop 0).take 3,
          (([0, 1, 2, 3, 4, 5, 6, 7] : List Nat).drop 3).take 5) ∧
      (∀ i x, i < 3 →
        ((([0, 1, 2, 3, 4, 5, 6, 7] : List Nat).set (0 + i) x).drop 3).take 5 =
          (([0, 1, 2, 3, 4, 5, 6, 7] : List Nat).drop 3).take 5 ∧
        ((([0, 1, 2, 3, 4, 5, 6, 7] : List Nat).set (0 + i) x).drop 0).take 3 =
          ((([0, 1, 2, 3, 4, 5, 6, 7] : List Nat).drop 0).take 3).set i x) ∧
      (∀ i x, i < 5 →
        ((([0, 1, 2, 3, 4, 5, 6, 7] : List Nat).set (3 + i) x).drop 0).take 3 =
          (([0, 1, 2, 3, 4, 5, 6, 7] : List Nat).drop 0).take 3 ∧
        ((([0, 1, 2, 3, 4, 5, 6, 7] : List Nat).set (3 + i) x).drop 3).take 5 =
          ((([0, 1, 2, 3, 4, 5, 6, 7] : List Nat).drop 3).take 5).set i x)) :=
  ⟨by decide, promote_spec [0, 1, 2, 3, 4, 5, 6, 7] 0 3 3 5 (by decide)⟩

/-!
Group-by streaming iterator (`Groups::next_streaming` and
`Group::next` in `src/iter.rs`). A `PartialEq` key type is modelled by
a type with decidable equality.
-/

structure GState (α : Type) where
  l : List α
  done : Bool

/-- The skip loop of `Groups::next_streaming` entered when the
previous run was not fully consumed (`!done`): advance past elements
whose key still equals `g`, stopping (without consuming) at the first
element carrying a new key, which is yielded, or failing at source
exhaustion. -/
def skipRun {α G : Type} [DecidableEq G] (f : α → G) (g : G) :
    List α → Option (G × List α)
  | [] => none
  | a :: rest => if f a = g then skipRun f g rest else some (f a, a :: rest)

/-- Model of one pull of `Groups::next_streaming`: `none` at source
exhaustion; otherwise yield the next run's key — after skipping the
remains of an unconsumed run when `done` is unset — and clear `done`. -/
def groupsNext {α G : Type} [DecidableEq G] (f : α → G) (st : GState α) :
    Option (G × GState α) :=
  match st.l with
  | [] => none
  | p :: _ =>
    if st.done then some (f p, ⟨st.l, false⟩)
    else
      match skipRun f (f p) st.l with
      | none => none
      | some (g, rest) => some (g, ⟨rest, false⟩)

/-- Model of one pull of `Group::next` for the run key `g`: yield the
next source element while its key matches `g`; on a key mismatch
(leaving the element unconsumed) or exhaustion yield nothing and set
`done`. -/
def groupNext {α G : Type} [DecidableEq G] (f : α → G) (g : G)
    (st : GState α) : Option α × GState α :=
  match st.l with
  | [] => (none, ⟨[], true⟩)
  | a :: rest =>
    if f a = g then (some a, ⟨rest, st.done⟩)
    else (none, ⟨a :: rest, true⟩)

/-- Pulling a yielded `Group` sub-iterator until it reports exhaustion
(fuel-bounded driver), as C6's disciplined caller does before the next
outer pull. -/
def groupExhaust {α G : Type} [DecidableEq G] (f : α → G) (g : G) :
    Nat → GState α → List α × GState α
  | 0, st => ([], st)
  | fuel + 1, st =>
    match groupNext f g st with
    | (none, st2) => ([], st2)
    | (some a, st2) =>
      (a :: (groupExhaust f g fuel st2).1, (groupExhaust f g fuel st2).2)

/-- The disciplined driver of C6: pull the outer iterator, exhaust each
yielded sub-iterator before the next outer pull, and collect the
`(key, run)` pairs. -/
def groupsRun {α G : Type} [DecidableEq G] (f : α → G) :
    Nat → GState α → List (G × List α)
  | 0, _ => []
  | fuel + 1, st =>
    match groupsNext f st with
    | none => []
    | some (g, st2) =>
      (g, (groupExhaust f g (st2.l.length + 1) st2).1) ::
        groupsRun f fuel (groupExhaust f g (st2.l.length + 1) st2).2

/-- `Groups` as constructed by `IterTools::group` (`done` starts out
`true`), pulled to exhaustion under C6's discipline. -/
def groups {α G : Type} [DecidableEq G] (f : α → G) (l : List α) :
    List (G × List α) :=
  groupsRun f (l.length + 1) ⟨l, true⟩

theorem groupExhaust_eq {α G : Type} [DecidableEq G] (f : α → G) (g : G) :
    ∀ (l : List α) (d : Bool) (fuel : Nat),
      (l.takeWhile (fun a => decide (f a = g))).length < fuel →
      groupExhaust f g fuel ⟨l, d⟩ =
        (l.takeWhile (fun a => decide (f a = g)),
         ⟨l.dropWhile (fun a => decide (f a = g)), true⟩)
  | [], d, 0, h => absurd h (by simp)
  | [], d, fuel + 1, _ => by
      simp [groupExhaust, groupNext]
  | a :: rest, d, 0, h => absurd h (by omega)
  | a :: rest, d, fuel + 1, h => by
      by_cases hfa : f a = g
      · have htw : (a :: rest).takeWhile (fun a => decide (f a = g)) =
            a :: rest.takeWhile (fun a => decide (f a = g)) :=
          List.takeWhile_cons_of_pos (by simpa using hfa)
        have hlt : (rest.takeWhile (fun a => decide (f a = g))).length < fuel := by
          rw [htw] at h
          simpa using h
        have ih := groupExhaust_eq f g rest d fuel hlt
        simp [groupExhaust, groupNext, hfa, ih, htw,
          List.dropWhile_cons_of_pos (by simpa using hfa : decide (f a = g) = true)]
      · have htwn : (a :: rest).takeWhile (fun b => decide (f b = g)) = [] :=
          List.takeWhile_cons_of_neg (by simp [hfa])
        have hdwn : (a :: rest).dropWhile (fun b => decide (f b = g)) =
            a :: rest := List.dropWhile_cons_of_neg (by simp [hfa])
        simp [groupExhaust, groupNext, hfa, htwn, hdwn]

theorem dropWhile_first_false {α : Type} (p : α → Bool) :
    ∀ (l : List α) (b : α) (t : List α), l.dropWhile p = b :: t → p b = false
  | [], b, t, h => by simp [List.dropWhile] at h
  | a :: rest, b, t, h => by
      by_cases hpa : p a = true
      · rw [List.dropWhile_cons_of_pos hpa] at h
        exact dropWhile_first_false p rest b t h
      · rw [List.dropWhile_cons_of_neg hpa] at h
        cases h
        simpa using hpa

theorem groupsRun_master {α G : Type} [DecidableEq G] (f : α → G) :
    ∀ (n : Nat) (l : List α) (fuel : Nat), l.length < fuel → l.length ≤ n →
      ((groupsRun f fuel ⟨l, true⟩).map Prod.snd).flatten = l ∧
      (∀ p ∈ groupsRun f fuel ⟨l, true⟩, ∀ a ∈ p.2, f a = p.1) ∧
      List.Chain' (fun g1 g2 => g1 ≠ g2)
        ((groupsRun f fuel ⟨l, true⟩).map Prod.fst) ∧
      ((groupsRun f fuel ⟨l, true⟩).map Prod.fst).head? = l.head?.map f
  | n, [], fuel, hfuel, hn => by
      match fuel, hfuel with
      | fuel + 1, _ =>
        simp [groupsRun, groupsNext]
  | 0, a :: rest, fuel, hfuel, hn => absurd hn (by simp)
  | n + 1, a :: rest, fuel, hfuel, hn => by
      match fuel, hfuel with
      | fuel + 1, hfuel =>
        have hout : groupsNext f ⟨a :: rest, true⟩ =
            some (f a, ⟨a :: rest, false⟩) := by
          simp [groupsNext]
        have hexh := groupExhaust_eq f (f a) (a :: rest) false
          ((a :: rest).length + 1)
          (by have := (List.takeWhile_sublist
                (l := a :: rest) (fun b => decide (f b = f a))).length_le
              omega)
        set p := fun b => decide (f b = f a) with hp
        have htw : (a :: rest).takeWhile p = a :: rest.takeWhile p :=
          List.takeWhile_cons_of_pos (by simp [hp])
        have hdw : (a :: rest).dropWhile p = rest.dropWhile p :=
          List.dropWhile_cons_of_pos (by simp [hp])
        have hdwlen : (rest.dropWhile p).length ≤ rest.length :=
          (List.dropWhile_sublist (l := rest) p).length_le
        have ih := groupsRun_master f n (rest.dropWhile p) fuel
          (by simp at hfuel; omega) (by simp at hn; omega)
        have hrun : groupsRun f (fuel + 1) ⟨a :: rest, true⟩ =
            (f a, a :: rest.takeWhile p) ::
              groupsRun f fuel ⟨rest.dropWhile p, true⟩ := by
          rw [groupsRun, hout]
          show (f a, (groupExhaust f (f a) ((a :: rest).length + 1)
              ⟨a :: rest, false⟩).1) ::
            groupsRun f fuel (groupExhaust f (f a) ((a :: rest).length + 1)
              ⟨a :: rest, false⟩).2 = _
          rw [hexh, htw, hdw]
        rw [hrun]
        refine ⟨?_, ?_, ?_, ?_⟩
        · simp only [List.map_cons, List.flatten_cons, ih.1]
          have : rest.takeWhile p ++ rest.dropWhile p = rest :=
            List.takeWhile_append_dropWhile p rest
          simp [this]
        · intro q hq b hb
          rcases List.mem_cons.mp hq with hq1 | hq2
          · subst hq1
            rcases List.mem_cons.mp hb with hb1 | hb2
            · subst hb1; rfl
            · have := List.mem_takeWhile_imp hb2
              simpa [hp] using this
          · exact ih.2.1 q hq2 b hb
        · simp only [List.map_cons]
          rw [List.chain'_cons']
          refine ⟨?_, ih.2.2.1⟩
          intro y hy
          rw [ih.2.2.2] at hy
          match hdrop : rest.dropWhile p with
          | [] => rw [hdrop] at hy; simp at hy
          | b :: t =>
            rw [hdrop] at hy
            simp at hy
            have hb := dropWhile_first_false p rest b t hdrop
            simp only [hp, decide_eq_false_iff_not] at hb
            intro hcon
            apply hb
            rw [hy, hcon]
        · simp
  decreasing_by all_goals omega

/-- C6: under the discipline that each yielded sub-iterator is pulled
to exhaustion before the next outer pull, the group-by iterator's
yielded runs concatenate, in order, back to the original sequence;
every element of a yielded run has the derived key the run was yielded
with; and consecutive yielded keys are always different. -/
theorem group_by_spec {α G : Type} [DecidableEq G] (f : α → G) (l : List α) :
    ((groups f l).map Prod.snd).flatten = l ∧
    (∀ p ∈ groups f l, ∀ a ∈ p.2, f a = p.1) ∧
    List.Chain' (fun g1 g2 => g1 ≠ g2) ((groups f l).map Prod.fst) := by
  have h := groupsRun_master f l.length l (l.length + 1) (by omega) (by omega)
  exact ⟨h.1, h.2.1, h.2.2.1⟩

/-- Witness for `group_by_spec` at the key function `n / 2` on
`[0, 1, 2, 4, 5]` (runs `[0, 1]`, `[2]`, `[4, 5]`). -/
theorem group_by_spec_witness :
    ((groups (fun n => n / 2) ([0, 1, 2, 4, 5] : List Nat)).map
      Prod.snd).flatten = [0, 1, 2, 4, 5] ∧
    (∀ p ∈ groups (fun n => n / 2) ([0, 1, 2, 4, 5] : List Nat),
      ∀ a ∈ p.2, a / 2 = p.1) ∧
    List.Chain' (fun g1 g2 => g1 ≠ g2)
      ((groups (fun n => n / 2) ([0, 1, 2, 4, 5] : List Nat)).map Prod.fst) :=
  group_by_spec (fun n => n / 2) [0, 1, 2, 4, 5]

/-!
Deduplicating iterator (`DedupIter::next` in `src/iter.rs`).
-/

/-- Model of one pull of `DedupIter::next`: take the next element `a`,
then consume (`while self.iter.peek() == n.as_ref()`) every
immediately following element equal to `a`. -/
def dedupNext {α : Type} [DecidableEq α] : List α → Option (α × List α)
  | [] => none
  | a :: rest => some (a, rest.dropWhile (fun b => decide (b = a)))

/-- Pulling `DedupIter` to exhaustion (fuel-bounded driver); every pull
consumes at least one element, so fuel equal to the length suffices. -/
def dedupRun {α : Type} [DecidableEq α] : Nat → List α → List α
  | 0, _ => []
  | fuel + 1, l =>
    match dedupNext l with
    | none => []
    | some (a, rest) => a :: dedupRun fuel rest

/-- `DedupIter` over a finite sequence, pulled to exhaustion. -/
def dedup {α : Type} [DecidableEq α] (l : List α) : List α :=
  dedupRun l.length l

/-- The decomposition of a sequence into its maximal runs of
consecutive equal elements, each run as (first element, rest of the
run). -/
def runsOf {α : Type} [DecidableEq α] : List α → List (α × List α)
  | [] => []
  | a :: rest =>
    (a, rest.takeWhile (fun b => decide (b = a))) ::
      runsOf (rest.dropWhile (fun b => decide (b = a)))
termination_by l => l.length
decreasing_by
  have := (List.dropWhile_sublist (l := rest) (fun b => decide (b = a))).length_le
  simp only [List.length_cons]
  omega

example : dedup [1, 1, 2, 3, 3, 4, 3, 3, 3, 3, 4, 4, 5, 6] =
    ([1, 2, 3, 4, 3, 4, 5, 6] : List Nat) := by decide

theorem dedupRun_eq_runs {α : Type} [DecidableEq α] :
    ∀ (fuel : Nat) (l : List α), l.length ≤ fuel →
      dedupRun fuel l = (runsOf l).map Prod.fst
  | 0, l, h => by
      have : l = [] := List.length_eq_zero.mp (by omega)
      subst this
      simp [dedupRun, runsOf]
  | fuel + 1, [], _ => by simp [dedupRun, dedupNext, runsOf]
  | fuel + 1, a :: rest, h => by
      have hlen := (List.dropWhile_sublist (l := rest)
        (fun b => decide (b = a))).length_le
      have ih := dedupRun_eq_runs fuel
        (rest.dropWhile (fun b => decide (b = a))) (by simp at h; omega)
      simp only [dedupRun, dedupNext, runsOf, List.map_cons, ih]

theorem runsOf_heads_chain {α : Type} [DecidableEq α] :
    ∀ (n : Nat) (l : List α), l.length ≤ n →
      List.Chain' (fun a b => a ≠ b) ((runsOf l).map Prod.fst)
  | n, [], _ => by simp [runsOf]
  | 0, a :: rest, h => absurd h (by simp)
  | n + 1, a :: rest, h => by
      have hlen := (List.dropWhile_sublist (l := rest)
        (fun b => decide (b = a))).length_le
      have ih := runsOf_heads_chain n
        (rest.dropWhile (fun b => decide (b = a))) (by simp at h; omega)
      simp only [runsOf, List.map_cons]
      rw [List.chain'_cons']
      refine ⟨?_, ih⟩
      intro y hy
      match hdrop : rest.dropWhile (fun b => decide (b = a)) with
      | [] => rw [hdrop] at hy; simp [runsOf] at hy
      | b :: t =>
        rw [hdrop] at hy
        simp [runsOf] at hy
        have hb := dropWhile_first_false (fun b => decide (b = a)) rest b t hdrop
        simp only [decide_eq_false_iff_not] at hb
        intro hcon
        exact hb (hy.trans hcon.symm)

theorem dedupRun_of_chain {α : Type} [DecidableEq α] :
    ∀ (fuel : Nat) (l : List α), l.length ≤ fuel →
      List.Chain' (fun a b => a ≠ b) l → dedupRun fuel l = l
  | 0, l, h, _ => by
      have : l = [] := List.length_eq_zero.mp (by omega)
      subst this
      rfl
  | fuel + 1, [], _, _ => by simp [dedupRun, dedupNext]
  | fuel + 1, a :: rest, h, hchain => by
      have hdrop : rest.dropWhile (fun b => decide (b = a)) = rest := by
        match rest with
        | [] => rfl
        | b :: t =>
          have hab : a ≠ b := (List.chain'_cons.mp hchain).1
          exact List.dropWhile_cons_of_neg (by simp; exact fun hc => hab hc.symm)
      have ih := dedupRun_of_chain fuel rest (by simp at h; omega)
        (List.Chain'.tail hchain)
      simp only [dedupRun, dedupNext, hdrop, ih]

/-- C10: the undocumented `DedupIter` yields, in order, the first
element of each maximal run of consecutive equal elements of its
source; consequently no two consecutively yielded items are equal, and
applying the iterator twice yields the same sequence as applying it
once. -/
theorem dedup_spec {α : Type} [DecidableEq α] (l : List α) :
    dedup l = (runsOf l).map Prod.fst ∧
    List.Chain' (fun a b => a ≠ b) (dedup l) ∧
    dedup (dedup l) = dedup l := by
  have h1 : dedup l = (runsOf l).map Prod.fst :=
    dedupRun_eq_runs l.length l (by omega)
  have h2 : List.Chain' (fun a b => a ≠ b) (dedup l) := by
    rw [h1]
    exact runsOf_heads_chain l.length l (by omega)
  exact ⟨h1, h2, dedupRun_of_chain (dedup l).length (dedup l) (by omega) h2⟩

end RustTools
